import Mathlib

/-!
Shallow embedding of the RyRef Blender addon (src/__init__.py): a screen-space
reference-image overlay system.  The data model (`RyRefImage`, the scene
properties), the per-frame compositor `draw_overlay` with its path-keyed
texture cache `_image_cache`, and the remove/move operators are translated
into pure Lean functions.  Host state that the Python code mutates in place
(the cache, the scene collection, the selected index) is threaded explicitly.
Blender floats are modelled as rationals; image pixel sizes as naturals.
The filesystem / image decoder (`bpy.data.images.load` + `gl_load` +
`gpu.texture.from_image`) is modelled as a function `String → Option Image`:
`none` means the load raises (LoadFailure), `some img` means decode succeeds.
Each successful decode+upload is given a fresh texture handle (a counter) and
is logged, so that "decode/upload happened" is observable in the model.
-/

/-- A decoded image, as the compositor observes it: the `has_data` flag and
the pixel size (`size[0]`, `size[1]` in the source). -/
structure Image where
  has_data : Bool
  size : Nat × Nat
deriving DecidableEq, Repr

/-- One overlay record: the fields of the `RyRefImage` property group. -/
structure RyRefImage where
  name : String
  filepath : String
  visible : Bool
  position : ℚ × ℚ
  scale : ℚ × ℚ
  opacity : ℚ
  flip_x : Bool
  flip_y : Bool
deriving DecidableEq, Repr

/-- The scene-level state the addon registers: the record collection, the
selected index (an `IntProperty`, hence `Int`), and the global enable flag. -/
structure Scene where
  ryref_references_on : Bool
  ryref_images : List RyRefImage
  ryref_index : Int
deriving DecidableEq, Repr

/-- The texture cache `_image_cache`: maps a filepath to the decoded image and
the GPU texture handle produced when it was first uploaded.  Modelled as an
association list; the compositor only inserts a key that is absent, so keys
stay unique as in the Python dict. -/
abbrev Cache := List (String × Image × Nat)

/-- Dict lookup `_image_cache[filepath]` / membership `filepath in _image_cache`. -/
def findEntry : Cache → String → Option (Image × Nat)
  | [], _ => none
  | (q, img, tex) :: rest, p => if q = p then some (img, tex) else findEntry rest p

/-- Dict removal `_image_cache.pop(path, None)`. -/
def cachePop (cache : Cache) (p : String) : Cache :=
  cache.filter (fun e => e.1 != p)

/-- One emitted draw call: quad corners, UVs, triangle indices, the bound
texture handle, and the color uniform `(1, 1, 1, opacity)`. -/
structure DrawCall where
  coords : List (ℚ × ℚ)
  uvs : List (ℚ × ℚ)
  indices : List (Nat × Nat × Nat)
  texture : Nat
  color : ℚ × ℚ × ℚ × ℚ
deriving DecidableEq, Repr

/-- The UV computation of `draw_overlay` (source lines 119-123): start from
the unit square and mirror each axis that is flipped. -/
def computeUVs (fx fy : Bool) : List (ℚ × ℚ) :=
  let uvs : List (ℚ × ℚ) := [(0, 0), (1, 0), (1, 1), (0, 1)]
  let uvs := if fx then uvs.map (fun q => (1 - q.1, q.2)) else uvs
  if fy then uvs.map (fun q => (q.1, 1 - q.2)) else uvs

/-- The geometry + batch construction of `draw_overlay` (source lines 106-137)
for one record and its resolved image/texture. -/
def mkDrawCall (r : RyRefImage) (image : Image) (tex : Nat) : DrawCall :=
  let x := r.position.1
  let y := r.position.2
  let width := (image.size.1 : ℚ) * r.scale.1
  let height := (image.size.2 : ℚ) * r.scale.2
  { coords := [(x, y), (x + width, y), (x + width, y + height), (x, y + height)],
    uvs := computeUVs r.flip_x r.flip_y,
    indices := [(0, 1, 2), (2, 3, 0)],
    texture := tex,
    color := (1, 1, 1, r.opacity) }

/-- The state threaded through one frame of `draw_overlay`: the cache, the
next fresh GPU texture handle, the draw calls emitted so far this frame, and
the log of paths that were decoded+uploaded this frame. -/
structure DrawState where
  cache : Cache
  nextTex : Nat
  draws : List DrawCall
  loads : List String
deriving DecidableEq, Repr

/-- The body of the `for img_data in scene.ryref_images` loop of
`draw_overlay` (source lines 87-138) for a single record. -/
def drawRecord (fs : String → Option Image) (r : RyRefImage) (st : DrawState) : DrawState :=
  if r.visible = false then st
  else
    match findEntry st.cache r.filepath with
    | none =>
      match fs r.filepath with
      | none => st
      | some image =>
        let st' : DrawState :=
          { st with
              cache := st.cache ++ [(r.filepath, image, st.nextTex)],
              nextTex := st.nextTex + 1,
              loads := st.loads ++ [r.filepath] }
        if image.has_data = false ∨ image.size.1 = 0 ∨ image.size.2 = 0 then st'
        else { st' with draws := st'.draws ++ [mkDrawCall r image st.nextTex] }
    | some (image, tex) =>
      if image.has_data = false ∨ image.size.1 = 0 ∨ image.size.2 = 0 then st
      else { st with draws := st.draws ++ [mkDrawCall r image tex] }

/-- The per-frame compositor `draw_overlay` (source lines 82-138). -/
def draw_overlay (fs : String → Option Image) (scene : Scene) (cache : Cache)
    (nextTex : Nat) : DrawState :=
  if scene.ryref_references_on = false then ⟨cache, nextTex, [], []⟩
  else scene.ryref_images.foldl (fun st r => drawRecord fs r st) ⟨cache, nextTex, [], []⟩

/-- A sequence of frames: `draw_overlay` invoked once per scene state in the
list (record fields may change between frames), threading the cache and the
texture-handle counter, with no intervening eviction.  Returns the final
cache, the final counter, and the concatenated decode+upload log. -/
def runFrames (fs : String → Option Image) : List Scene → Cache → Nat →
    Cache × Nat × List String
  | [], cache, n => (cache, n, [])
  | s :: rest, cache, n =>
    let st := draw_overlay fs s cache n
    let out := runFrames fs rest st.cache st.nextTex
    (out.1, out.2.1, st.loads ++ out.2.2)

/-- `RYREF_OT_remove_image.execute` (source lines 171-179): if the selected
index is in range, pop the selected record filepath from the cache, remove
the record, and clamp the index; always return FINISHED. -/
def RYREF_OT_remove_image_execute (scene : Scene) (cache : Cache) :
    Scene × Cache × String :=
  let idx := scene.ryref_index
  if h : 0 ≤ idx ∧ idx < (scene.ryref_images.length : Int) then
    let img := scene.ryref_images.get ⟨idx.toNat, by omega⟩
    ({ scene with
         ryref_images := scene.ryref_images.eraseIdx idx.toNat,
         ryref_index := max 0 (idx - 1) },
     cachePop cache img.filepath, "FINISHED")
  else (scene, cache, "FINISHED")

/-- Direction argument of `RYREF_OT_move_image`. -/
inductive MoveDirection
  | UP
  | DOWN
deriving DecidableEq, Repr

/-- Modelled from the spec: the host collection accessor
`bpy_prop_collection.move(key, pos)` used by `RYREF_OT_move_image.execute` is
Blender code, not part of this repository.  Per the spec (index-out-of-range
on move commands is a no-op), it moves the element at `key` to slot `pos`
when both indices are in range and does nothing otherwise. -/
def collectionMove {α : Type} (l : List α) (key pos : Int) : List α :=
  if 0 ≤ key ∧ key < (l.length : Int) ∧ 0 ≤ pos ∧ pos < (l.length : Int) ∧ key ≠ pos then
    match l[key.toNat]? with
    | some a => (l.eraseIdx key.toNat).insertIdx pos.toNat a
    | none => l
  else l

/-- `RYREF_OT_move_image.execute` (source lines 191-203): move the selected
record up or down when the guard holds, and shift the selected index the same
way; always return FINISHED. -/
def RYREF_OT_move_image_execute (direction : MoveDirection) (scene : Scene)
    (cache : Cache) : Scene × Cache × String :=
  let images := scene.ryref_images
  let index := scene.ryref_index
  match direction with
  | .UP =>
    if index > 0 then
      ({ scene with
           ryref_images := collectionMove images index (index - 1),
           ryref_index := index - 1 }, cache, "FINISHED")
    else (scene, cache, "FINISHED")
  | .DOWN =>
    if index < (images.length : Int) - 1 then
      ({ scene with
           ryref_images := collectionMove images index (index + 1),
           ryref_index := index + 1 }, cache, "FINISHED")
    else (scene, cache, "FINISHED")

/-- A sample decoded image (500 x 300, matching the quad-geometry example). -/
def imgW : Image := { has_data := true, size := (500, 300) }

/-- A sample record at the default position and scale. -/
def recW : RyRefImage :=
  { name := "Reference", filepath := "ref.png", visible := true,
    position := (100, 100), scale := (0.2, 0.2), opacity := 1,
    flip_x := false, flip_y := false }

/-- A sample filesystem: only `ref.png` decodes. -/
def fsW : String → Option Image := fun p => if p = "ref.png" then some imgW else none

/-- A second sample record sharing the filepath of `recW`. -/
def recShared : RyRefImage := { recW with name := "B", position := (300, 100) }

/-- A degenerate decoded image: loads fine but has zero width. -/
def imgZ : Image := { has_data := true, size := (0, 300) }

/-- A sample record pointing at the degenerate image. -/
def recZ : RyRefImage := { recW with name := "Z", filepath := "zero.png" }

/-- A sample filesystem where `zero.png` decodes to the degenerate image. -/
def fsZ : String → Option Image := fun p => if p = "zero.png" then some imgZ else none

/-- A sample cache holding the decoded `ref.png`. -/
def cacheW : Cache := [("ref.png", imgW, 0)]

/-- A sample record whose path fails to load under `fsW`. -/
def recMissing : RyRefImage := { recW with name := "M", filepath := "missing.png" }

/-- C5: when the global enable flag is false the compositor returns at once:
no draw calls, no loads, cache and texture counter untouched, for every
record list, selected index, cache state and filesystem. -/
theorem C5_disabled_no_draws (fs : String → Option Image) (imgs : List RyRefImage)
    (idx : Int) (cache : Cache) (n : Nat) :
    draw_overlay fs ⟨false, imgs, idx⟩ cache n = ⟨cache, n, [], []⟩ := by
  simp [draw_overlay]

/-- C6: a record with `visible = false` is skipped entirely: the draw state
(cache, texture counter, draws, load log) is unchanged, so no cache lookup,
load, upload or draw call happens for it, regardless of cache state. -/
theorem C6_invisible_skipped (fs : String → Option Image) (r : RyRefImage)
    (st : DrawState) (h : r.visible = false) : drawRecord fs r st = st := by
  simp [drawRecord, h]

/-- C6 witness: the skip at a concrete invisible record and nonempty cache. -/
theorem C6_invisible_skipped_witness :
    { recW with visible := false }.visible = false ∧
    drawRecord fsW { recW with visible := false }
      ⟨[("ref.png", imgW, 0)], 1, [], []⟩ = ⟨[("ref.png", imgW, 0)], 1, [], []⟩ :=
  ⟨rfl, C6_invisible_skipped fsW { recW with visible := false }
    ⟨[("ref.png", imgW, 0)], 1, [], []⟩ rfl⟩

/-- C3: the emitted UVs are the unit square `(0,0),(1,0),(1,1),(0,1)` with
`u` replaced by `1-u` when `flip_x` and `v` by `1-v` when `flip_y`, the two
flips composing independently; in particular `flip_x` alone gives
`(1,0),(0,0),(0,1),(1,1)` and both flips give `(1,1),(0,1),(0,0),(1,0)`. -/
theorem C3_uv_flips :
    (∀ fx fy : Bool, computeUVs fx fy =
      ([((0 : ℚ), (0 : ℚ)), (1, 0), (1, 1), (0, 1)]).map
        (fun q => ((if fx then 1 - q.1 else q.1), (if fy then 1 - q.2 else q.2)))) ∧
    computeUVs true false = [((1 : ℚ), (0 : ℚ)), (0, 0), (0, 1), (1, 1)] ∧
    computeUVs true true = [((1 : ℚ), (1 : ℚ)), (0, 1), (0, 0), (1, 0)] := by
  refine ⟨?_, by norm_num [computeUVs], by norm_num [computeUVs]⟩
  intro fx fy
  cases fx <;> cases fy <;> norm_num [computeUVs]

/-- C2: for every visible record whose image resolves from the cache with
`has_data` and positive width and height, the compositor appends exactly one
draw call, and its corners are (x, y), (x + w * sx, y),
(x + w * sx, y + h * sy), (x, y + h * sy). -/
theorem C2_quad_geometry (fs : String → Option Image) (r : RyRefImage)
    (st : DrawState) (img : Image) (tex : Nat)
    (hv : r.visible = true) (hc : findEntry st.cache r.filepath = some (img, tex))
    (hd : img.has_data = true) (hw : 0 < img.size.1) (hh : 0 < img.size.2) :
    (drawRecord fs r st).draws = st.draws ++ [mkDrawCall r img tex] ∧
    (mkDrawCall r img tex).coords =
      [(r.position.1, r.position.2),
       (r.position.1 + (img.size.1 : ℚ) * r.scale.1, r.position.2),
       (r.position.1 + (img.size.1 : ℚ) * r.scale.1,
        r.position.2 + (img.size.2 : ℚ) * r.scale.2),
       (r.position.1, r.position.2 + (img.size.2 : ℚ) * r.scale.2)] := by
  have hw' : img.size.1 ≠ 0 := by omega
  have hh' : img.size.2 ≠ 0 := by omega
  exact ⟨by simp [drawRecord, hv, hc, hd, hw', hh'], rfl⟩

/-- C2 witness: at position (100, 100), scale (0.2, 0.2) and a 500 x 300
image the corners are (100,100), (200,100), (200,160), (100,160). -/
theorem C2_quad_geometry_witness :
    recW.visible = true ∧
    findEntry cacheW recW.filepath = some (imgW, 0) ∧
    imgW.has_data = true ∧ 0 < imgW.size.1 ∧ 0 < imgW.size.2 ∧
    (drawRecord fsW recW ⟨cacheW, 1, [], []⟩).draws = [mkDrawCall recW imgW 0] ∧
    (mkDrawCall recW imgW 0).coords =
      [((100 : ℚ), (100 : ℚ)), (200, 100), (200, 160), (100, 160)] := by
  have h := C2_quad_geometry fsW recW ⟨cacheW, 1, [], []⟩ imgW 0 rfl
    (by simp [cacheW, recW, findEntry]) rfl (by norm_num [imgW]) (by norm_num [imgW])
  refine ⟨rfl, by simp [cacheW, recW, findEntry], rfl, by norm_num [imgW],
    by norm_num [imgW], by simpa using h.1, ?_⟩
  rw [h.2]
  norm_num [recW, imgW]

/-- C10: a record whose image decodes with zero width or height still gets a
cache entry inserted (and the decode+upload logged) before being skipped with
no draw call; and once that entry is cached, a later frame skips the record
with the draw state fully unchanged, so the degenerate asset is not
re-decoded and the stale entry persists. -/
theorem C10_degenerate_cached (fs : String → Option Image) (r : RyRefImage)
    (st : DrawState) (img : Image)
    (hv : r.visible = true) (hdeg : img.size.1 = 0 ∨ img.size.2 = 0) :
    (findEntry st.cache r.filepath = none → fs r.filepath = some img →
      drawRecord fs r st =
        { st with
            cache := st.cache ++ [(r.filepath, img, st.nextTex)],
            nextTex := st.nextTex + 1,
            loads := st.loads ++ [r.filepath] }) ∧
    (∀ tex, findEntry st.cache r.filepath = some (img, tex) →
      drawRecord fs r st = st) := by
  have hcond : img.has_data = false ∨ img.size.1 = 0 ∨ img.size.2 = 0 := Or.inr hdeg
  constructor
  · intro hc hfs
    simp only [drawRecord, hv, hc, hfs]
    rw [if_neg (by simp), if_pos hcond]
  · intro tex hc
    simp only [drawRecord, hv, hc]
    rw [if_neg (by simp), if_pos hcond]

/-- C10 witness: the degenerate `zero.png` is cached then skipped on first
draw, and a second frame over the cached entry changes nothing. -/
theorem C10_degenerate_cached_witness :
    recZ.visible = true ∧ ((0 : Nat) = 0 ∨ imgZ.size.2 = 0) ∧
    findEntry ([] : Cache) recZ.filepath = none ∧ fsZ recZ.filepath = some imgZ ∧
    drawRecord fsZ recZ ⟨[], 0, [], []⟩ = ⟨[("zero.png", imgZ, 0)], 1, [], ["zero.png"]⟩ ∧
    findEntry [("zero.png", imgZ, 0)] recZ.filepath = some (imgZ, 0) ∧
    drawRecord fsZ recZ ⟨[("zero.png", imgZ, 0)], 1, [], []⟩ =
      ⟨[("zero.png", imgZ, 0)], 1, [], []⟩ := by
  have h := C10_degenerate_cached fsZ recZ ⟨[], 0, [], []⟩ imgZ rfl (Or.inl rfl)
  have h2 := C10_degenerate_cached fsZ recZ ⟨[("zero.png", imgZ, 0)], 1, [], []⟩ imgZ
    rfl (Or.inl rfl)
  refine ⟨rfl, Or.inl rfl, rfl, by simp [fsZ, recZ, recW], ?_, ?_, ?_⟩
  · have := h.1 rfl (by simp [fsZ, recZ, recW])
    simpa [recZ, recW] using this
  · simp [findEntry, recZ, recW]
  · exact h2.2 0 (by simp [findEntry, recZ, recW])

/-- C1: the claim says removing a record evicts its cache entry only when no
remaining record shares its source path.  The code instead pops the path
unconditionally: with two records both referencing `ref.png` and the entry
cached, removing index 0 leaves the second record in the store but the cache
entry for `ref.png` is gone, so the surviving record must re-decode. -/
theorem C1_remove_evicts_shared_path :
    (RYREF_OT_remove_image_execute ⟨true, [recW, recShared], 0⟩ cacheW).1.ryref_images
        = [recShared] ∧
    recShared.filepath = "ref.png" ∧
    findEntry cacheW "ref.png" = some (imgW, 0) ∧
    findEntry
      (RYREF_OT_remove_image_execute ⟨true, [recW, recShared], 0⟩ cacheW).2.1
      "ref.png" = none := by
  refine ⟨?_, rfl, by simp [cacheW, findEntry], ?_⟩ <;>
    simp [RYREF_OT_remove_image_execute, cachePop, findEntry, cacheW, recW, recShared]

/-- C8: when the selected index is out of range for the record list, remove
returns scene and cache unchanged with FINISHED, and move (either direction)
leaves the record list and the cache unchanged and also reports FINISHED. -/
theorem C8_out_of_range_noop (scene : Scene) (cache : Cache)
    (h : ¬(0 ≤ scene.ryref_index ∧
           scene.ryref_index < (scene.ryref_images.length : Int))) :
    RYREF_OT_remove_image_execute scene cache = (scene, cache, "FINISHED") ∧
    ∀ d : MoveDirection,
      (RYREF_OT_move_image_execute d scene cache).1.ryref_images
          = scene.ryref_images ∧
      (RYREF_OT_move_image_execute d scene cache).2.1 = cache ∧
      (RYREF_OT_move_image_execute d scene cache).2.2 = "FINISHED" := by
  constructor
  · simp only [RYREF_OT_remove_image_execute]
    rw [dif_neg h]
  · intro d
    cases d with
    | UP =>
      by_cases hp : scene.ryref_index > 0
      · have hm : collectionMove scene.ryref_images scene.ryref_index
            (scene.ryref_index - 1) = scene.ryref_images := by
          unfold collectionMove
          rw [if_neg]
          omega
        simp [RYREF_OT_move_image_execute, hp, hm]
      · simp [RYREF_OT_move_image_execute, hp]
    | DOWN =>
      by_cases hp : scene.ryref_index < (scene.ryref_images.length : Int) - 1
      · have hm : collectionMove scene.ryref_images scene.ryref_index
            (scene.ryref_index + 1) = scene.ryref_images := by
          unfold collectionMove
          rw [if_neg]
          omega
        simp [RYREF_OT_move_image_execute, hp, hm]
      · simp [RYREF_OT_move_image_execute, hp]

/-- C8 witness: with an empty record list and index 0, remove and both moves
leave everything unchanged and report FINISHED. -/
theorem C8_out_of_range_noop_witness :
    ¬((0 : Int) ≤ (Scene.mk true [] 0).ryref_index ∧
      (Scene.mk true [] 0).ryref_index
        < ((Scene.mk true [] 0).ryref_images.length : Int)) ∧
    RYREF_OT_remove_image_execute (Scene.mk true [] 0) cacheW
      = (Scene.mk true [] 0, cacheW, "FINISHED") ∧
    (RYREF_OT_move_image_execute .UP (Scene.mk true [] 0) cacheW).1.ryref_images = [] ∧
    (RYREF_OT_move_image_execute .UP (Scene.mk true [] 0) cacheW).2.1 = cacheW ∧
    (RYREF_OT_move_image_execute .UP (Scene.mk true [] 0) cacheW).2.2 = "FINISHED" ∧
    (RYREF_OT_move_image_execute .DOWN (Scene.mk true [] 0) cacheW).1.ryref_images = [] ∧
    (RYREF_OT_move_image_execute .DOWN (Scene.mk true [] 0) cacheW).2.1 = cacheW ∧
    (RYREF_OT_move_image_execute .DOWN (Scene.mk true [] 0) cacheW).2.2 = "FINISHED" := by
  have hh : ¬((0 : Int) ≤ (Scene.mk true [] 0).ryref_index ∧
      (Scene.mk true [] 0).ryref_index
        < ((Scene.mk true [] 0).ryref_images.length : Int)) := by
    simp
  have h := C8_out_of_range_noop (Scene.mk true [] 0) cacheW hh
  exact ⟨hh, h.1, (h.2 .UP).1, (h.2 .UP).2.1, (h.2 .UP).2.2,
    (h.2 .DOWN).1, (h.2 .DOWN).2.1, (h.2 .DOWN).2.2⟩

/-- Lookup distributes over append when the key misses the first part. -/
lemma findEntry_append_of_none (c c2 : Cache) (p : String)
    (h : findEntry c p = none) : findEntry (c ++ c2) p = findEntry c2 p := by
  induction c with
  | nil => simp
  | cons e rest ih =>
    obtain ⟨q, img, tex⟩ := e
    by_cases hq : q = p
    · simp [findEntry, hq] at h
    · simp only [findEntry, if_neg hq] at h
      simpa [findEntry, if_neg hq] using ih h

/-- Lookup ignores an appended tail when the key hits the first part. -/
lemma findEntry_append_of_some (c c2 : Cache) (p : String) (e : Image × Nat)
    (h : findEntry c p = some e) : findEntry (c ++ c2) p = some e := by
  induction c with
  | nil => simp [findEntry] at h
  | cons hd rest ih =>
    obtain ⟨q, img, tex⟩ := hd
    by_cases hq : q = p
    · simp only [findEntry, if_pos hq] at h
      simp [findEntry, if_pos hq, h]
    · simp only [findEntry, if_neg hq] at h
      simpa [findEntry, if_neg hq] using ih h

/-- A path that cannot load and is not cached stays uncached through one
record step of the compositor loop. -/
lemma drawRecord_absent_preserved (fs : String → Option Image) (r : RyRefImage)
    (st : DrawState) (p : String) (hfs : fs p = none)
    (hc : findEntry st.cache p = none) :
    findEntry (drawRecord fs r st).cache p = none := by
  unfold drawRecord
  by_cases hv : r.visible = false
  · simpa [hv]
  · rw [if_neg hv]
    rcases hfind : findEntry st.cache r.filepath with _ | ⟨img, tex⟩
    · rcases hload : fs r.filepath with _ | img
      · simp only [hfind, hload]
        exact hc
      · have hne : r.filepath ≠ p := by
          intro hEq
          rw [hEq, hfs] at hload
          exact Option.noConfusion hload
        have hap : findEntry (st.cache ++ [(r.filepath, img, st.nextTex)]) p = none := by
          rw [findEntry_append_of_none st.cache _ p hc]
          simp [findEntry, hne]
        simp only [hfind, hload]
        split <;> simpa using hap
    · simp only [hfind]
      split <;> simpa using hc

/-- A visible record whose path is uncached and fails to load leaves the
whole draw state untouched: the loop body hits the except branch. -/
lemma drawRecord_failpath_id (fs : String → Option Image) (r : RyRefImage)
    (st : DrawState) (hfs : fs r.filepath = none)
    (hc : findEntry st.cache r.filepath = none) : drawRecord fs r st = st := by
  unfold drawRecord
  by_cases hv : r.visible = false
  · simp [hv]
  · rw [if_neg hv]
    simp only [hc, hfs]

/-- A path that cannot load and is not cached stays uncached through the
whole per-frame loop. -/
lemma foldl_absent_preserved (fs : String → Option Image) (l : List RyRefImage)
    (st : DrawState) (p : String) (hfs : fs p = none)
    (hc : findEntry st.cache p = none) :
    findEntry (l.foldl (fun s r => drawRecord fs r s) st).cache p = none := by
  induction l generalizing st with
  | nil => simpa
  | cons r rest ih =>
    rw [List.foldl_cons]
    exact ih (drawRecord fs r st) (drawRecord_absent_preserved fs r st p hfs hc)

/-- C4: a record whose uncached path fails to load is skipped for the frame
with no effect at all: the frame output equals the output with that record
deleted from the list (so every other record, before or after it, draws
exactly as it would), and the failing path has no cache entry afterwards, so
the next frame naturally retries the load. -/
theorem C4_load_failure_isolated (fs : String → Option Image) (gOn : Bool)
    (idx : Int) (l1 l2 : List RyRefImage) (r : RyRefImage) (cache : Cache)
    (n : Nat) (p : String) (hp : r.filepath = p) (hfs : fs p = none)
    (hc : findEntry cache p = none) :
    draw_overlay fs ⟨gOn, l1 ++ r :: l2, idx⟩ cache n
      = draw_overlay fs ⟨gOn, l1 ++ l2, idx⟩ cache n ∧
    findEntry (draw_overlay fs ⟨gOn, l1 ++ r :: l2, idx⟩ cache n).cache p = none := by
  cases gOn with
  | false => exact ⟨rfl, by simpa [draw_overlay] using hc⟩
  | true =>
    have hinit : findEntry (DrawState.mk cache n [] []).cache p = none := hc
    have hstep : ∀ st : DrawState, findEntry st.cache p = none →
        drawRecord fs r st = st := by
      intro st hst
      exact drawRecord_failpath_id fs r st (by rw [hp]; exact hfs) (by rw [hp]; exact hst)
    constructor
    · show (l1 ++ r :: l2).foldl (fun st q => drawRecord fs q st) ⟨cache, n, [], []⟩
        = (l1 ++ l2).foldl (fun st q => drawRecord fs q st) ⟨cache, n, [], []⟩
      rw [List.foldl_append, List.foldl_append, List.foldl_cons]
      congr 1
      exact hstep _ (foldl_absent_preserved fs l1 ⟨cache, n, [], []⟩ p hfs hinit)
    · show findEntry
        (((l1 ++ r :: l2).foldl (fun st q => drawRecord fs q st) ⟨cache, n, [], []⟩)).cache p
        = none
      exact foldl_absent_preserved fs (l1 ++ r :: l2) ⟨cache, n, [], []⟩ p hfs hinit

/-- C4 witness: `missing.png` fails to load; the frame over
[recMissing, recW] equals the frame over [recW] alone (the later record still
draws) and no entry is cached for the failing path. -/
theorem C4_load_failure_isolated_witness :
    recMissing.filepath = "missing.png" ∧ fsW "missing.png" = none ∧
    findEntry ([] : Cache) "missing.png" = none ∧
    draw_overlay fsW ⟨true, [recMissing, recW], 0⟩ [] 0
      = draw_overlay fsW ⟨true, [recW], 0⟩ [] 0 ∧
    findEntry (draw_overlay fsW ⟨true, [recMissing, recW], 0⟩ [] 0).cache
      "missing.png" = none := by
  have h := C4_load_failure_isolated fsW true 0 [] [recW] recMissing [] 0
    "missing.png" rfl (by simp [fsW]) rfl
  exact ⟨rfl, by simp [fsW], rfl, h.1, h.2⟩

/-- One compositor loop step, viewed through one path: either the step leaves
the path's cache entry and decode count unchanged, or the path was absent,
becomes cached, and exactly one decode+upload of it is logged. -/
lemma drawRecord_step_cases (fs : String → Option Image) (r : RyRefImage)
    (st : DrawState) (p : String) :
    (findEntry (drawRecord fs r st).cache p = findEntry st.cache p ∧
      List.count p (drawRecord fs r st).loads = List.count p st.loads) ∨
    (findEntry st.cache p = none ∧
      (findEntry (drawRecord fs r st).cache p).isSome ∧
      List.count p (drawRecord fs r st).loads = List.count p st.loads + 1) := by
  unfold drawRecord
  by_cases hv : r.visible = false
  · left
    simp [hv]
  · rw [if_neg hv]
    rcases hfind : findEntry st.cache r.filepath with _ | ⟨img, tex⟩
    · rcases hload : fs r.filepath with _ | img
      · simp [hfind, hload]
      · simp only [hfind, hload]
        by_cases hp : r.filepath = p
        · right
          refine ⟨hp ▸ hfind, ?_, ?_⟩
          · have hsome : findEntry (st.cache ++ [(r.filepath, img, st.nextTex)]) p
                = some (img, st.nextTex) := by
              rw [findEntry_append_of_none st.cache _ p (hp ▸ hfind)]
              simp [findEntry, hp]
            split <;> simp [hsome]
          · split <;> simp [List.count_append, hp]
        · left
          have hkeep : findEntry (st.cache ++ [(r.filepath, img, st.nextTex)]) p
              = findEntry st.cache p := by
            rcases hq : findEntry st.cache p with _ | e
            · rw [findEntry_append_of_none st.cache _ p hq]
              simp [findEntry, hp]
            · exact findEntry_append_of_some st.cache _ p e hq
          constructor
          · split <;> simpa using hkeep
          · split <;> simp [List.count_append, List.count_cons, hp]
    · simp only [hfind]
      left
      constructor
      · split <;> rfl
      · split <;> rfl

/-- The per-frame loop, viewed through one path: a cached entry survives the
frame untouched with no decode; an absent path either stays absent with no
decode or gets cached by exactly one decode. -/
lemma foldl_resolve_once (fs : String → Option Image) (l : List RyRefImage)
    (st : DrawState) (p : String) :
    (∀ e, findEntry st.cache p = some e →
      findEntry ((l.foldl (fun s r => drawRecord fs r s) st)).cache p = some e ∧
      List.count p ((l.foldl (fun s r => drawRecord fs r s) st)).loads
        = List.count p st.loads) ∧
    (findEntry st.cache p = none →
      (findEntry ((l.foldl (fun s r => drawRecord fs r s) st)).cache p = none ∧
        List.count p ((l.foldl (fun s r => drawRecord fs r s) st)).loads
          = List.count p st.loads) ∨
      ((findEntry ((l.foldl (fun s r => drawRecord fs r s) st)).cache p).isSome ∧
        List.count p ((l.foldl (fun s r => drawRecord fs r s) st)).loads
          = List.count p st.loads + 1)) := by
  induction l generalizing st with
  | nil => exact ⟨fun e he => ⟨he, rfl⟩, fun hn => Or.inl ⟨hn, rfl⟩⟩
  | cons r rest ih =>
    rw [List.foldl_cons]
    rcases drawRecord_step_cases fs r st p with ⟨hceq, hleq⟩ | ⟨hnone, hsome, hcnt⟩
    · constructor
      · intro e he
        have h1 := (ih (drawRecord fs r st)).1 e (by rw [hceq]; exact he)
        exact ⟨h1.1, by rw [h1.2, hleq]⟩
      · intro hn
        rcases (ih (drawRecord fs r st)).2 (by rw [hceq]; exact hn) with
          ⟨h1, h2⟩ | ⟨h1, h2⟩
        · exact Or.inl ⟨h1, by rw [h2, hleq]⟩
        · exact Or.inr ⟨h1, by rw [h2, hleq]⟩
    · constructor
      · intro e he
        rw [he] at hnone
        exact Option.noConfusion hnone
      · intro hn
        obtain ⟨e', he'⟩ := Option.isSome_iff_exists.mp hsome
        have h1 := (ih (drawRecord fs r st)).1 e' he'
        refine Or.inr ⟨?_, by rw [h1.2, hcnt]⟩
        rw [h1.1]
        rfl

/-- One whole frame, viewed through one path. -/
lemma draw_overlay_resolve_once (fs : String → Option Image) (s : Scene)
    (cache : Cache) (n : Nat) (p : String) :
    (∀ e, findEntry cache p = some e →
      findEntry (draw_overlay fs s cache n).cache p = some e ∧
      List.count p (draw_overlay fs s cache n).loads = 0) ∧
    (findEntry cache p = none →
      (findEntry (draw_overlay fs s cache n).cache p = none ∧
        List.count p (draw_overlay fs s cache n).loads = 0) ∨
      ((findEntry (draw_overlay fs s cache n).cache p).isSome ∧
        List.count p (draw_overlay fs s cache n).loads = 1)) := by
  unfold draw_overlay
  by_cases hOn : s.ryref_references_on = false
  · rw [if_pos hOn]
    exact ⟨fun e he => ⟨he, by simp⟩, fun hn => Or.inl ⟨hn, by simp⟩⟩
  · rw [if_neg hOn]
    have h := foldl_resolve_once fs s.ryref_images ⟨cache, n, [], []⟩ p
    constructor
    · intro e he
      have h1 := h.1 e he
      exact ⟨h1.1, by simpa using h1.2⟩
    · intro hn
      rcases h.2 hn with ⟨h1, h2⟩ | ⟨h1, h2⟩
      · exact Or.inl ⟨h1, by simpa using h2⟩
      · exact Or.inr ⟨h1, by simpa using h2⟩

/-- A frame sequence, viewed through one path. -/
lemma runFrames_resolve_once (fs : String → Option Image) (scenes : List Scene)
    (cache : Cache) (n : Nat) (p : String) :
    (∀ e, findEntry cache p = some e →
      findEntry (runFrames fs scenes cache n).1 p = some e ∧
      List.count p (runFrames fs scenes cache n).2.2 = 0) ∧
    (findEntry cache p = none →
      (findEntry (runFrames fs scenes cache n).1 p = none ∧
        List.count p (runFrames fs scenes cache n).2.2 = 0) ∨
      ((findEntry (runFrames fs scenes cache n).1 p).isSome ∧
        List.count p (runFrames fs scenes cache n).2.2 = 1)) := by
  induction scenes generalizing cache n with
  | nil => exact ⟨fun e he => ⟨he, rfl⟩, fun hn => Or.inl ⟨hn, rfl⟩⟩
  | cons s rest ih =>
    have hf := draw_overlay_resolve_once fs s cache n p
    have hih := ih (draw_overlay fs s cache n).cache (draw_overlay fs s cache n).nextTex
    simp only [runFrames]
    constructor
    · intro e he
      have h1 := hf.1 e he
      have h2 := hih.1 e h1.1
      exact ⟨h2.1, by rw [List.count_append, h1.2, h2.2]⟩
    · intro hn
      rcases hf.2 hn with ⟨hc1, hl1⟩ | ⟨hc1, hl1⟩
      · rcases hih.2 hc1 with ⟨hc2, hl2⟩ | ⟨hc2, hl2⟩
        · exact Or.inl ⟨hc2, by rw [List.count_append, hl1, hl2]⟩
        · exact Or.inr ⟨hc2, by rw [List.count_append, hl1, hl2]⟩
      · obtain ⟨e', he'⟩ := Option.isSome_iff_exists.mp hc1
        have h2 := hih.1 e' he'
        refine Or.inr ⟨?_, by rw [List.count_append, hl1, h2.2]⟩
        rw [h2.1]
        rfl

/-- C7: across any frame sequence with no intervening eviction, the
decode-and-upload path runs at most once per distinct source path; and once a
path has a cache entry, every later frame reuses exactly the stored entry
(same decoded image and texture handle) with zero further decodes. -/
theorem C7_resolve_at_most_once (fs : String → Option Image)
    (scenes : List Scene) (cache : Cache) (n : Nat) (p : String) :
    List.count p (runFrames fs scenes cache n).2.2 ≤ 1 ∧
    (∀ e, findEntry cache p = some e →
      findEntry (runFrames fs scenes cache n).1 p = some e ∧
      List.count p (runFrames fs scenes cache n).2.2 = 0) := by
  have h := runFrames_resolve_once fs scenes cache n p
  refine ⟨?_, h.1⟩
  rcases hq : findEntry cache p with _ | e
  · rcases h.2 hq with ⟨_, h2⟩ | ⟨_, h2⟩ <;> omega
  · have h2 := (h.1 e hq).2
    omega

/-- C7 witness: two frames over a record whose path is already cached keep
the entry and decode nothing. -/
theorem C7_resolve_at_most_once_witness :
    List.count "ref.png"
      (runFrames fsW [Scene.mk true [recW] 0, Scene.mk true [recW] 0] cacheW 1).2.2 ≤ 1 ∧
    findEntry cacheW "ref.png" = some (imgW, 0) ∧
    findEntry
      (runFrames fsW [Scene.mk true [recW] 0, Scene.mk true [recW] 0] cacheW 1).1
      "ref.png" = some (imgW, 0) ∧
    List.count "ref.png"
      (runFrames fsW [Scene.mk true [recW] 0, Scene.mk true [recW] 0] cacheW 1).2.2 = 0 := by
  have h := C7_resolve_at_most_once fsW
    [Scene.mk true [recW] 0, Scene.mk true [recW] 0] cacheW 1 "ref.png"
  have h2 := h.2 (imgW, 0) (by simp [cacheW, findEntry])
  exact ⟨h.1, by simp [cacheW, findEntry], h2.1, h2.2⟩

/-- Indexing past an appended prefix reads the suffix. -/
lemma getElem?_append_len {α : Type} (t u : List α) (n : Nat) :
    (t ++ u)[t.length + n]? = u[n]? := by
  induction t with
  | nil => simp
  | cons x t ih =>
    have hn : t.length + 1 + n = (t.length + n) + 1 := by omega
    simp only [List.cons_append, List.length_cons, hn, List.getElem?_cons_succ]
    exact ih

/-- Erasing past an appended prefix erases in the suffix. -/
lemma eraseIdx_append_len {α : Type} (t u : List α) (n : Nat) :
    (t ++ u).eraseIdx (t.length + n) = t ++ u.eraseIdx n := by
  induction t with
  | nil => simp
  | cons x t ih =>
    have hn : t.length + 1 + n = (t.length + n) + 1 := by omega
    simp only [List.cons_append, List.length_cons, hn, List.eraseIdx_cons_succ]
    exact congrArg (List.cons x) ih

/-- Inserting past an appended prefix inserts in the suffix. -/
lemma insertIdx_append_len {α : Type} (t u : List α) (n : Nat) (a : α) :
    (t ++ u).insertIdx (t.length + n) a = t ++ u.insertIdx n a := by
  induction t with
  | nil => simp
  | cons x t ih =>
    have hn : t.length + 1 + n = (t.length + n) + 1 := by omega
    simp only [List.cons_append, List.length_cons, hn, List.insertIdx_succ_cons]
    exact congrArg (List.cons x) ih

/-- Both adjacent host moves around position `t.length` swap the two
neighbouring elements and touch nothing else. -/
lemma collectionMove_adjacent {α : Type} (t : List α) (a b : α) (u : List α) :
    collectionMove (t ++ a :: b :: u) ((t.length : Int) + 1) (t.length : Int)
      = t ++ b :: a :: u ∧
    collectionMove (t ++ a :: b :: u) (t.length : Int) ((t.length : Int) + 1)
      = t ++ b :: a :: u := by
  have hlen : (t ++ a :: b :: u).length = t.length + (u.length + 2) := by
    simp [List.length_append]
  have hk1 : ((t.length : Int) + 1).toNat = t.length + 1 := by omega
  have hk0 : ((t.length : Int)).toNat = t.length := by omega
  constructor
  · unfold collectionMove
    rw [if_pos (by constructor <;> [omega; (refine ⟨?_, ?_, ?_, ?_⟩ <;> omega)])]
    rw [hk1, hk0]
    have hget : (t ++ a :: b :: u)[t.length + 1]? = some b := by
      rw [getElem?_append_len t (a :: b :: u) 1]
      simp
    rw [hget]
    show List.insertIdx t.length b ((t ++ a :: b :: u).eraseIdx (t.length + 1))
      = t ++ b :: a :: u
    rw [eraseIdx_append_len t (a :: b :: u) 1]
    rw [show (a :: b :: u).eraseIdx 1 = a :: u from rfl]
    have h0 := insertIdx_append_len t (a :: u) 0 b
    rw [Nat.add_zero] at h0
    rw [h0]
    rfl
  · unfold collectionMove
    rw [if_pos (by constructor <;> [omega; (refine ⟨?_, ?_, ?_, ?_⟩ <;> omega)])]
    rw [hk1, hk0]
    have hget : (t ++ a :: b :: u)[t.length]? = some a := by
      have h0 := getElem?_append_len t (a :: b :: u) 0
      rw [Nat.add_zero] at h0
      rw [h0]
      simp
    rw [hget]
    show List.insertIdx (t.length + 1) a ((t ++ a :: b :: u).eraseIdx t.length)
      = t ++ b :: a :: u
    have hdel : (t ++ a :: b :: u).eraseIdx t.length = t ++ b :: u := by
      have h0 := eraseIdx_append_len t (a :: b :: u) 0
      rw [Nat.add_zero] at h0
      rw [h0]
      rfl
    rw [hdel]
    rw [insertIdx_append_len t (b :: u) 1 a]
    rfl

/-- C9: an in-range move only swaps the selected record with its neighbour
(down when the index is below the last slot, up when it is positive): the
records themselves are the unchanged values `a` and `b` with all other
entries in place, the selected index follows the moved record, the cache is
returned untouched, and the operator reports FINISHED. -/
theorem C9_move_adjacent_swap (scene : Scene) (cache : Cache)
    (t : List RyRefImage) (a b : RyRefImage) (u : List RyRefImage)
    (himg : scene.ryref_images = t ++ a :: b :: u) :
    (scene.ryref_index = (t.length : Int) →
      RYREF_OT_move_image_execute .DOWN scene cache =
        ({ scene with ryref_images := t ++ b :: a :: u,
                      ryref_index := (t.length : Int) + 1 }, cache, "FINISHED")) ∧
    (scene.ryref_index = (t.length : Int) + 1 →
      RYREF_OT_move_image_execute .UP scene cache =
        ({ scene with ryref_images := t ++ b :: a :: u,
                      ryref_index := (t.length : Int) }, cache, "FINISHED")) := by
  have hlen : (t ++ a :: b :: u).length = t.length + (u.length + 2) := by
    simp [List.length_append]
  constructor
  · intro hidx
    simp only [RYREF_OT_move_image_execute, himg, hidx]
    rw [if_pos (by omega)]
    rw [(collectionMove_adjacent t a b u).2]
  · intro hidx
    simp only [RYREF_OT_move_image_execute, himg, hidx]
    rw [if_pos (by omega)]
    rw [show (t.length : Int) + 1 - 1 = (t.length : Int) from by ring]
    rw [(collectionMove_adjacent t a b u).1]

/-- C9 witness: moving the first of two records down and the second up both
swap the pair, carry the index along, and leave the cache untouched. -/
theorem C9_move_adjacent_swap_witness :
    (Scene.mk true [recW, recShared] 0).ryref_images
      = [] ++ recW :: recShared :: [] ∧
    (Scene.mk true [recW, recShared] 0).ryref_index
      = (([] : List RyRefImage).length : Int) ∧
    RYREF_OT_move_image_execute .DOWN (Scene.mk true [recW, recShared] 0) cacheW
      = (Scene.mk true [recShared, recW] 1, cacheW, "FINISHED") ∧
    RYREF_OT_move_image_execute .UP (Scene.mk true [recW, recShared] 1) cacheW
      = (Scene.mk true [recShared, recW] 0, cacheW, "FINISHED") := by
  have hd := (C9_move_adjacent_swap (Scene.mk true [recW, recShared] 0) cacheW
    [] recW recShared [] rfl).1 (by simp)
  have hu := (C9_move_adjacent_swap (Scene.mk true [recW, recShared] 1) cacheW
    [] recW recShared [] rfl).2 (by simp)
  refine ⟨rfl, by simp, ?_, ?_⟩
  · rw [hd]
    norm_num
  · rw [hu]
    norm_num
